import Mathlib

/-!
Verification of the gossip-gloomers node implementations
(src/bin/kafka.rs, src/bin/broadcast.rs) via a shallow embedding.

The kafka node keeps no local log state: everything lives in two external
key-value stores (linearizable "lin-kv" and sequential "seq-kv") addressed
by the fixed key schema `{key}:{offset}`, `latest:{key}`, `committed:{key}`.
We model a KV store as an association list (newest binding first), and the
handlers as pure state transformers over the pair of stores.
-/

namespace Kafka

/-- A key-value store: association list from string keys to i64 values,
newest binding first (a write shadows older bindings). -/
def KVStore := List (String × Int)

/-- Read a key: first (newest) binding wins; `none` models the NotFound
error of the Maelstrom KV `read`. -/
def kvRead (s : KVStore) (k : String) : Option Int :=
  (s.find? (fun p => p.1 = k)).map (fun p => p.2)

/-- Write a key (Maelstrom KV `write`): unconditional overwrite. -/
def kvWrite (s : KVStore) (k : String) (v : Int) : KVStore :=
  (k, v) :: s

/-- Compare-and-swap (Maelstrom KV `cas` with `create_if_not_exists = put`):
succeeds iff the stored value equals `fr`, or the key is absent and `put`
is set; `none` models the Conflict/NotFound error. -/
def kvCas (s : KVStore) (k : String) (fr tgt : Int) (put : Bool) : Option KVStore :=
  match kvRead s k with
  | none => if put then some (kvWrite s k tgt) else none
  | some v => if v = fr then some (kvWrite s k tgt) else none

/-- Key schema from kafka.rs: `format!("latest:{}", key)`. -/
def latestKey (key : String) : String := "latest:" ++ key

/-- Key schema from kafka.rs: `format!("committed:{}", key)`. -/
def committedKey (key : String) : String := "committed:" ++ key

/-- Key schema from kafka.rs: `format!("{}:{}", key, offset)`. -/
def msgKey (key : String) (off : Int) : String := key ++ ":" ++ toString off

/-- The two stores held by `KafkaNode` (`storage_lin = "lin-kv"`,
`storage_seq = "seq-kv"`). -/
structure KState where
  lin : KVStore
  seq : KVStore

/-- The CAS retry loop inside `Payload::Send`: starting from candidate
`start`, attempt `cas(lin, latest_key, start-1, start, true)`; on Conflict
increment and retry. The Rust loop is unbounded; `fuel` bounds the
embedding, `none` meaning the loop did not finish within `fuel` attempts. -/
def sendLoop (fuel : Nat) (lin : KVStore) (lk : String) (start : Int) :
    Option (KVStore × Int) :=
  match fuel with
  | 0 => none
  | fuel + 1 =>
    match kvCas lin lk (start - 1) start true with
    | some lin2 => some (lin2, start)
    | none => sendLoop fuel lin lk (start + 1)

/-- `Payload::Send { key, msg }` handler: read `latest:{key}` from the
linearizable store (NotFound defaults to 0), run the CAS retry loop there,
then write the message to `{key}:{offset}` and best-effort refresh
`latest:{key}`, both in the sequential store; reply `SendOk` with the
allocated offset. -/
def handleSend (fuel : Nat) (st : KState) (key : String) (msg : Int) :
    Option (KState × Int) :=
  let lk := latestKey key
  let start := (kvRead st.lin lk).getD 0
  (sendLoop fuel st.lin lk start).map (fun p =>
    let seq2 := kvWrite st.seq (msgKey key p.2) msg
    let seq3 := kvWrite seq2 lk p.2
    (⟨p.1, seq3⟩, p.2))

/-- Window size: `const MSG_SIZE: i64 = 5`. -/
def MSG_SIZE : Nat := 5

/-- The Rust iteration range `offset..(offset + MSG_SIZE)` as a list of
i64 offsets. -/
def window (off : Int) : List Int :=
  (List.range MSG_SIZE).map (fun (j : Nat) => off + (j : Int))

/-- One key of `Payload::Poll`: read offsets `off .. off + 5` from the
sequential store; a NotFound slot is skipped (`continue`), a found value
`v` at offset `i` contributes the pair `(i, v)`. -/
def pollKey (seq : KVStore) (key : String) (off : Int) : List (Int × Int) :=
  (window off).filterMap (fun i =>
    (kvRead seq (msgKey key i)).map (fun v => (i, v)))

/-- `Payload::Poll { offsets }` handler: per requested key, the windowed
read; the reply always carries an entry for every requested key. -/
def handlePoll (st : KState) (offsets : List (String × Int)) :
    List (String × List (Int × Int)) :=
  offsets.map (fun p => (p.1, pollKey st.seq p.1 p.2))

/-- `Payload::CommitOffsets { offsets }` handler: best-effort overwrite of
`committed:{key}` in the sequential store for each entry. -/
def handleCommit (st : KState) (offsets : List (String × Int)) : KState :=
  offsets.foldl (fun st p => ⟨st.lin, kvWrite st.seq (committedKey p.1) p.2⟩) st

/-- `Payload::ListCommittedOffsets { keys }` handler: read
`committed:{key}` per key from the sequential store, defaulting to 0 on
NotFound; always produces an entry per requested key. -/
def handleList (st : KState) (keys : List String) : List (String × Int) :=
  keys.map (fun k => (k, (kvRead st.seq (committedKey k)).getD 0))

/-- The empty pair of stores (initial state of a fresh cluster). -/
def emptyK : KState := ⟨[], []⟩

/-- Scenario B of the spec run through the embedding: `Send("k",100)`,
then `Send("k",200)`, then `Poll({"k":0})`; returns the two offsets and
the poll reply. -/
def scenarioB : Option (Int × Int × List (String × List (Int × Int))) :=
  (handleSend 10 emptyK "k" 100).bind (fun p1 =>
    (handleSend 10 p1.1 "k" 200).map (fun p2 =>
      (p1.2, p2.2, handlePoll p2.1 [("k", 0)])))

/- Basic store lemmas. -/

theorem mem_window (off i : Int) :
    i ∈ window off ↔ off ≤ i ∧ i < off + (MSG_SIZE : Int) := by
  constructor
  · intro hmem
    rcases List.mem_map.mp hmem with ⟨j, hj, he⟩
    have hj5 : j < MSG_SIZE := List.mem_range.mp hj
    subst he
    constructor <;> [omega; (simp [MSG_SIZE] at hj5 ⊢; omega)]
  · rintro ⟨h1, h2⟩
    refine List.mem_map.mpr ⟨(i - off).toNat, List.mem_range.mpr ?_, ?_⟩
    · simp [MSG_SIZE] at h2 ⊢
      omega
    · omega

theorem handleList_map_fst (st : KState) (keys : List String) :
    (handleList st keys).map Prod.fst = keys := by
  induction keys with
  | nil => rfl
  | cons a t ih => simpa [handleList] using ih

theorem kvRead_kvWrite_self (s : KVStore) (k : String) (v : Int) :
    kvRead (kvWrite s k v) k = some v := by
  simp [kvRead, kvWrite, List.find?]

theorem kvRead_kvWrite_ne (s : KVStore) (k k2 : String) (v : Int)
    (h : k2 ≠ k) : kvRead (kvWrite s k v) k2 = kvRead s k2 := by
  have hne : ¬ ((k, v).1 = k2) := fun he => h he.symm
  have hd : decide ((k, v).1 = k2) = false := decide_eq_false hne
  simp only [kvRead, kvWrite, List.find?]
  rw [hd]

/-- C4: starting from empty KV stores, a single node handling
`Send("k",100)` then `Send("k",200)` sequentially replies `SendOk` with
offsets 0 and 1, and a subsequent `Poll({"k":0})` replies `PollOk` with
`{"k": [[0,100],[1,200]]}`. -/
theorem scenarioB_offsets_and_poll :
    scenarioB = some (0, 1, [("k", [(0, 100), (1, 200)])]) := by rfl

/-- C5: `Poll` reads exactly the fixed window `fromOffset .. fromOffset+5`
(half-open) per requested key: `(i, v)` is in a key's result iff `i` lies
in the window and the sequential-store read at `{key}:{i}` finds `v`;
absent offsets are simply omitted, and the reply always carries an entry
for every requested key, so one NotFound never fails the reply nor drops
other keys. -/
theorem poll_window_gap_tolerant (st : KState) (offsets : List (String × Int)) :
    (handlePoll st offsets).map Prod.fst = offsets.map Prod.fst ∧
    ∀ key off i v, ((i, v) ∈ pollKey st.seq key off ↔
      off ≤ i ∧ i < off + (MSG_SIZE : Int) ∧ kvRead st.seq (msgKey key i) = some v) := by
  constructor
  · simp [handlePoll]
  · intro key off i v
    constructor
    · intro hmem
      rcases List.mem_filterMap.mp hmem with ⟨j, hj, hf⟩
      rcases Option.map_eq_some'.mp hf with ⟨w, hw, he⟩
      have h1 : j = i := congrArg Prod.fst he
      have h2 : w = v := congrArg Prod.snd he
      rw [h1] at hj hw
      rw [h2] at hw
      rcases (mem_window off i).mp hj with ⟨hl, hr⟩
      exact ⟨hl, hr, hw⟩
    · rintro ⟨h1, h2, hr⟩
      refine List.mem_filterMap.mpr ⟨i, (mem_window off i).mpr ⟨h1, h2⟩, ?_⟩
      rw [hr]
      rfl

/-- C5 witness: in a store holding only `{“k”}:0 → 100`, the poll window
starting at 0 contains `(0, 100)`, derived from the window
characterization at concrete inputs. -/
theorem poll_window_gap_tolerant_witness :
    (0, 100) ∈ pollKey (kvWrite [] (msgKey "k" 0) 100) "k" 0 :=
  ((poll_window_gap_tolerant ⟨[], kvWrite [] (msgKey "k" 0) 100⟩ []).2 "k" 0 0 100).mpr
    ⟨by decide, by decide, by rfl⟩

/-- C6: `CommitOffsets({k: n})` followed by `ListCommittedOffsets([k])`
yields `n`; a later `CommitOffsets({k: m})` with `m < n` overwrites the
committed marker to `m` — last-write-wins, no monotonicity enforcement. -/
theorem commit_lastWriteWins (st : KState) (k : String) (n m : Int) (h : m < n) :
    handleList (handleCommit st [(k, n)]) [k] = [(k, n)] ∧
    handleList (handleCommit (handleCommit st [(k, n)]) [(k, m)]) [k] = [(k, m)] := by
  constructor <;> simp [handleList, handleCommit, kvRead_kvWrite_self]

/-- C6 witness: the round-trip at `k = "k"`, `n = 2`, `m = 1`. -/
theorem commit_lastWriteWins_witness :
    handleList (handleCommit emptyK [("k", 2)]) ["k"] = [("k", 2)] ∧
    handleList (handleCommit (handleCommit emptyK [("k", 2)]) [("k", 1)]) ["k"]
      = [("k", 1)] :=
  commit_lastWriteWins emptyK "k" 2 1 (by norm_num)

/-- C9: the `ListCommittedOffsetsOk` reply carries an entry for every
requested key (in order — no key is ever dropped and the reply never
fails), and a key whose `committed:{key}` read fails (absent) is reported
with offset 0. -/
theorem listCommitted_total_default_zero (st : KState) (keys : List String) :
    (handleList st keys).map Prod.fst = keys ∧
    ∀ k, k ∈ keys → (k, (kvRead st.seq (committedKey k)).getD 0) ∈ handleList st keys ∧
      (kvRead st.seq (committedKey k) = none → (k, 0) ∈ handleList st keys) := by
  refine ⟨handleList_map_fst st keys, ?_⟩
  intro k hk
  constructor
  · exact List.mem_map.mpr ⟨k, hk, rfl⟩
  · intro hnone
    refine List.mem_map.mpr ⟨k, hk, ?_⟩
    rw [hnone]
    rfl

/-- C9 witness: on the empty store, listing key `"a"` yields the entry
`("a", 0)`. -/
theorem listCommitted_total_default_zero_witness :
    ("a", 0) ∈ handleList emptyK ["a"] :=
  ((listCommitted_total_default_zero emptyK ["a"]).2 "a" (by simp)).2 (by rfl)

/-!
Concurrent offset allocation (C1). Concurrent `Send` handlers interact
only through the linearizable store's `latest:{key}` cell: every iteration
of each caller's retry loop issues `cas(lin, latest_key, c - 1, c, true)`
for its current candidate `c` (kafka.rs: `let (prev, now) = (curr - 1,
curr)`), and a caller's granted offset is the `c` of its one successful
attempt. Linearizability means the attempts of all concurrent callers
form one interleaved sequence of atomic CAS operations, which we
quantify over: `runCasSeq` applies an arbitrary sequence of candidates'
attempts and collects the granted (successful) candidates in order. -/

/-- One CAS attempt of the Send retry loop with candidate `c` against
store `lin` at key `lk`: exactly `kvCas lin lk (c - 1) c true`; a failed
attempt leaves the store unchanged. -/
def casAttempt (lin : KVStore) (lk : String) (c : Int) : KVStore × Bool :=
  match kvCas lin lk (c - 1) c true with
  | some lin2 => (lin2, true)
  | none => (lin, false)

/-- Run an interleaved sequence of retry-loop attempts (candidates `cs`)
against the linearizable store, returning the final store and the list of
granted offsets in grant order. -/
def runCasSeq (lin : KVStore) (lk : String) : List Int → KVStore × List Int
  | [] => (lin, [])
  | c :: cs =>
    let r := casAttempt lin lk c
    let rest := runCasSeq r.1 lk cs
    (rest.1, if r.2 then c :: rest.2 else rest.2)

/-- Granted offsets strictly increase, and every grant exceeds whatever
value the `latest` cell held when the attempt sequence started. -/
theorem runCasSeq_grants_increasing (cs : List Int) :
    ∀ (lin : KVStore) (lk : String),
      ((runCasSeq lin lk cs).2.Chain' (· < ·)) ∧
      (∀ a ∈ (runCasSeq lin lk cs).2, ∀ v, kvRead lin lk = some v → v < a) := by
  induction cs with
  | nil => intro lin lk; exact ⟨List.chain'_nil, by simp [runCasSeq]⟩
  | cons c cs ih =>
    intro lin lk
    rcases hcell : kvRead lin lk with _ | v
    · -- cell absent: the CAS creates it with value c and succeeds
      have hrun : runCasSeq lin lk (c :: cs)
          = ((runCasSeq (kvWrite lin lk c) lk cs).1,
             c :: (runCasSeq (kvWrite lin lk c) lk cs).2) := by
        simp [runCasSeq, casAttempt, kvCas, hcell]
      rcases ih (kvWrite lin lk c) lk with ⟨ihc, ihb⟩
      have hlt : ∀ a ∈ (runCasSeq (kvWrite lin lk c) lk cs).2, c < a := fun a ha =>
        ihb a ha c (kvRead_kvWrite_self lin lk c)
      refine ⟨?_, ?_⟩
      · rw [hrun]
        exact List.chain'_cons'.mpr
          ⟨fun b hb => hlt b (List.mem_of_mem_head? hb), ihc⟩
      · intro a ha v hv
        exact absurd hv (by simp)
    · by_cases hc : v = c - 1
      · -- stored value matches `c - 1`: CAS succeeds, cell becomes c
        have hrun : runCasSeq lin lk (c :: cs)
            = ((runCasSeq (kvWrite lin lk c) lk cs).1,
               c :: (runCasSeq (kvWrite lin lk c) lk cs).2) := by
          simp [runCasSeq, casAttempt, kvCas, hcell, hc]
        rcases ih (kvWrite lin lk c) lk with ⟨ihc, ihb⟩
        have hlt : ∀ a ∈ (runCasSeq (kvWrite lin lk c) lk cs).2, c < a := fun a ha =>
          ihb a ha c (kvRead_kvWrite_self lin lk c)
        refine ⟨?_, ?_⟩
        · rw [hrun]
          exact List.chain'_cons'.mpr
            ⟨fun b hb => hlt b (List.mem_of_mem_head? hb), ihc⟩
        · intro a ha v0 hv0
          have hv0v : v = v0 := by injection hv0
          rw [hrun] at ha
          rcases List.mem_cons.mp ha with rfl | ha2
          · omega
          · have := hlt a ha2
            omega
      · -- Conflict: store unchanged, no grant from this attempt
        have hrun : runCasSeq lin lk (c :: cs)
            = ((runCasSeq lin lk cs).1, (runCasSeq lin lk cs).2) := by
          simp [runCasSeq, casAttempt, kvCas, hcell, hc]
        rcases ih lin lk with ⟨ihc, ihb⟩
        rw [hrun]
        exact ⟨ihc, fun a ha v0 hv0 => ihb a ha v0 (hcell.trans hv0)⟩

/-- C1: for any interleaving of concurrent Send retry loops on the same
key — any sequence of candidate CAS attempts against `latest:{key}` in
the linearizable store, from any starting store — the granted offsets are
pairwise distinct: each successful CAS allocates a value no other caller
is also granted. -/
theorem send_offsets_pairwise_distinct (lin : KVStore) (lk : String)
    (cs : List Int) : ((runCasSeq lin lk cs).2).Pairwise (· ≠ ·) := by
  have hc := (runCasSeq_grants_increasing cs lin lk).1
  have hp : ((runCasSeq lin lk cs).2).Pairwise (· < ·) :=
    List.chain'_iff_pairwise.mp hc
  exact hp.imp (fun h => ne_of_lt h)

/-!
RPC correlation layer (C2, C8). `KafkaNode::rpc` allocates the next id
with `fetch_add` on the per-node counter, inserts the oneshot sender into
the `rpc` table, and only then transmits the request; the reply-routing
branch of `handle` removes the table entry for `in_reply_to` — with
`.remove(&id).unwrap()`, which PANICS when no slot is registered for the
id. We model the table as the list of registered ids, and panics as
`none`. -/

/-- The reply-routing branch of `KafkaNode::handle` (kafka.rs lines
172-180): on a message carrying `in_reply_to = id`, remove the slot for
`id` and complete it; `self.rpc.lock().await.remove(&id).unwrap()` panics
(`none`) when `id` is not registered. -/
def routeReply (table : List Nat) (id : Nat) : Option (List Nat) :=
  if id ∈ table then some (table.erase id) else none

/-- C2 (code evaluated at the failing input): a reply whose `in_reply_to`
id has no registered slot makes `routeReply` panic (`Option::unwrap` on
`None`), here shown on the empty table with reply id 5 — while a
registered id is completed and removed. The spec requires the
unregistered case to be reported without panicking; the code panics. -/
theorem routeReply_unregistered_panics :
    routeReply [] 5 = none ∧ routeReply [5] 5 = some [] := by decide

/-- Observable actions of the RPC layer, in program order. -/
inductive RpcAction where
  | register (id : Nat)
  | transmit (id : Nat)
  | complete (id : Nat)
deriving DecidableEq

/-- Correlation-layer state: the `fetch_add` id counter (seeded at 1 in
`from_init`) and the set of registered (outstanding) ids. -/
structure RpcState where
  counter : Nat
  table : List Nat
deriving DecidableEq

/-- Events driving the correlation layer: a `KafkaNode::rpc` call, or an
inbound reply with the given `in_reply_to` id. -/
inductive RpcStep where
  | call
  | reply (id : Nat)

/-- One transition: `.call` is `KafkaNode::rpc` up to transmission —
allocate `id := counter` (`fetch_add`), register the completion slot,
THEN transmit (the actions are emitted in this program order, kafka.rs
lines 81-95); `.reply id` is the routing branch — remove and complete the
slot, panicking (`none`) on an unregistered id. -/
def stepRpc : RpcState → RpcStep → Option (RpcState × List RpcAction)
  | s, .call => some (⟨s.counter + 1, s.counter :: s.table⟩,
      [.register s.counter, .transmit s.counter])
  | s, .reply id =>
      if id ∈ s.table then some (⟨s.counter, s.table.erase id⟩, [.complete id])
      else none

/-- Run a sequence of correlation-layer events, concatenating the emitted
action traces. -/
def runRpc : RpcState → List RpcStep → Option (RpcState × List RpcAction)
  | s, [] => some (s, [])
  | s, e :: es =>
      (stepRpc s e).bind (fun p =>
        (runRpc p.1 es).map (fun q => (q.1, p.2 ++ q.2)))

/-- The ids registered along a trace, in order. -/
def registersOf (tr : List RpcAction) : List Nat :=
  tr.filterMap (fun a => match a with | .register id => some id | _ => none)

/-- `transmitsRegistered regs tr` holds when every `transmit id` in `tr`
is preceded (within `tr`, or by `regs`) by a `register id`: the slot is
in the table strictly before the request goes out. -/
def transmitsRegistered (regs : List Nat) : List RpcAction → Bool
  | [] => true
  | .register id :: rest => transmitsRegistered (id :: regs) rest
  | .transmit id :: rest => decide (id ∈ regs) && transmitsRegistered regs rest
  | .complete _ :: rest => transmitsRegistered regs rest

/-- The registered set accumulated by scanning a trace. -/
def regsAfter (regs : List Nat) : List RpcAction → List Nat
  | [] => regs
  | .register id :: rest => regsAfter (id :: regs) rest
  | .transmit _ :: rest => regsAfter regs rest
  | .complete _ :: rest => regsAfter regs rest

theorem transmitsRegistered_append (tr1 : List RpcAction) :
    ∀ (tr2 : List RpcAction) (regs : List Nat),
      transmitsRegistered regs (tr1 ++ tr2)
        = (transmitsRegistered regs tr1 && transmitsRegistered (regsAfter regs tr1) tr2) := by
  induction tr1 with
  | nil => intro tr2 regs; simp [transmitsRegistered, regsAfter]
  | cons a rest ih =>
    intro tr2 regs
    cases a with
    | register id => simp [transmitsRegistered, regsAfter, ih]
    | transmit id => simp [transmitsRegistered, regsAfter, ih, Bool.and_assoc]
    | complete id => simp [transmitsRegistered, regsAfter, ih]

theorem transmitsRegistered_mono (tr : List RpcAction) :
    ∀ (regs regs2 : List Nat), (∀ id, id ∈ regs → id ∈ regs2) →
      transmitsRegistered regs tr = true → transmitsRegistered regs2 tr = true := by
  induction tr with
  | nil => intro regs regs2 hsub h; rfl
  | cons a rest ih =>
    intro regs regs2 hsub h
    cases a with
    | register id =>
      exact ih (id :: regs) (id :: regs2)
        (fun x hx => by
          rcases List.mem_cons.mp hx with rfl | hx2
          · exact List.mem_cons_self x regs2
          · exact List.mem_cons_of_mem id (hsub x hx2)) h
    | transmit id =>
      simp only [transmitsRegistered, Bool.and_eq_true, decide_eq_true_eq] at h ⊢
      exact ⟨hsub id h.1, ih regs regs2 hsub h.2⟩
    | complete id => exact ih regs regs2 hsub h

/-- The reachability invariant of the correlation table: every registered
id was allocated below the counter, and no id is registered twice. -/
def RpcInv (s : RpcState) : Prop :=
  (∀ id ∈ s.table, id < s.counter) ∧ s.table.Nodup

theorem runRpc_master (es : List RpcStep) :
    ∀ (s s2 : RpcState) (tr : List RpcAction), RpcInv s →
      runRpc s es = some (s2, tr) →
      RpcInv s2 ∧ s.counter ≤ s2.counter ∧
      transmitsRegistered s.table tr = true ∧
      ((registersOf tr).Chain' (· < ·)) ∧
      (∀ id ∈ registersOf tr, s.counter ≤ id ∧ id < s2.counter) := by
  induction es with
  | nil =>
    intro s s2 tr hinv hrun
    have h1 : s = s2 ∧ ([] : List RpcAction) = tr := by
      simpa [runRpc] using hrun
    rcases h1 with ⟨rfl, h2⟩
    rw [← h2]
    exact ⟨hinv, le_refl _, rfl, List.chain'_nil, by simp [registersOf]⟩
  | cons e es ih =>
    intro s s2 tr hinv hrun
    cases e with
    | call =>
      have hrun2 : (runRpc ⟨s.counter + 1, s.counter :: s.table⟩ es).map
          (fun q => (q.1,
            [RpcAction.register s.counter, RpcAction.transmit s.counter] ++ q.2))
          = some (s2, tr) := hrun
      rcases Option.map_eq_some'.mp hrun2 with ⟨q, hq, heq⟩
      have hs2 : q.1 = s2 := congrArg Prod.fst heq
      have htr : [RpcAction.register s.counter, RpcAction.transmit s.counter]
          ++ q.2 = tr := congrArg Prod.snd heq
      have hinv1 : RpcInv ⟨s.counter + 1, s.counter :: s.table⟩ := by
        refine ⟨?_, ?_⟩
        · intro x hx
          show x < s.counter + 1
          rcases List.mem_cons.mp hx with rfl | hx2
          · omega
          · exact Nat.lt_succ_of_lt (hinv.1 x hx2)
        · refine List.nodup_cons.mpr ⟨?_, hinv.2⟩
          intro hmem
          exact absurd (hinv.1 s.counter hmem) (by omega)
      rcases ih ⟨s.counter + 1, s.counter :: s.table⟩ q.1 q.2 hinv1 hq with
        ⟨hinv2, hcnt, htrans, hchain, hbnd⟩
      have hcnt2 : s.counter + 1 ≤ q.1.counter := hcnt
      rw [← htr, ← hs2]
      refine ⟨hinv2, by omega, ?_, ?_, ?_⟩
      · rw [transmitsRegistered_append]
        have h1 : transmitsRegistered s.table
            [RpcAction.register s.counter, RpcAction.transmit s.counter] = true := by
          simp [transmitsRegistered]
        have h2 : regsAfter s.table
            [RpcAction.register s.counter, RpcAction.transmit s.counter]
            = s.counter :: s.table := rfl
        rw [h1, h2]
        exact htrans
      · have hreg : registersOf ([RpcAction.register s.counter,
            RpcAction.transmit s.counter] ++ q.2)
            = s.counter :: registersOf q.2 := by
          simp [registersOf]
        rw [hreg]
        refine List.chain'_cons'.mpr ⟨?_, hchain⟩
        intro b hb
        have hbm := List.mem_of_mem_head? hb
        have h3 : s.counter + 1 ≤ b := (hbnd b hbm).1
        omega
      · intro x hx
        have hreg : registersOf ([RpcAction.register s.counter,
            RpcAction.transmit s.counter] ++ q.2)
            = s.counter :: registersOf q.2 := by
          simp [registersOf]
        rw [hreg] at hx
        rcases List.mem_cons.mp hx with rfl | hx2
        · exact ⟨le_refl _, by omega⟩
        · have h4 := hbnd x hx2
          have h5 : s.counter + 1 ≤ x := h4.1
          exact ⟨by omega, h4.2⟩
    | reply id =>
      by_cases hmem : id ∈ s.table
      · have hstep : stepRpc s (RpcStep.reply id)
            = some (⟨s.counter, s.table.erase id⟩, [RpcAction.complete id]) := by
          simp [stepRpc, hmem]
        have hrun2 : (runRpc ⟨s.counter, s.table.erase id⟩ es).map
            (fun q => (q.1, [RpcAction.complete id] ++ q.2)) = some (s2, tr) := by
          have : runRpc s (RpcStep.reply id :: es)
              = (stepRpc s (RpcStep.reply id)).bind (fun p =>
                (runRpc p.1 es).map (fun q => (q.1, p.2 ++ q.2))) := rfl
          rw [this, hstep] at hrun
          exact hrun
        rcases Option.map_eq_some'.mp hrun2 with ⟨q, hq, heq⟩
        have hs2 : q.1 = s2 := congrArg Prod.fst heq
        have htr : [RpcAction.complete id] ++ q.2 = tr := congrArg Prod.snd heq
        have hinv1 : RpcInv ⟨s.counter, s.table.erase id⟩ := by
          refine ⟨?_, hinv.2.erase id⟩
          intro x hx
          exact hinv.1 x (List.mem_of_mem_erase hx)
        rcases ih ⟨s.counter, s.table.erase id⟩ q.1 q.2 hinv1 hq with
          ⟨hinv2, hcnt, htrans, hchain, hbnd⟩
        have hcnt2 : s.counter ≤ q.1.counter := hcnt
        rw [← htr, ← hs2]
        refine ⟨hinv2, hcnt2, ?_, ?_, ?_⟩
        · show transmitsRegistered s.table (RpcAction.complete id :: q.2) = true
          show transmitsRegistered s.table q.2 = true
          exact transmitsRegistered_mono q.2 (s.table.erase id) s.table
            (fun x hx => List.mem_of_mem_erase hx) htrans
        · simpa [registersOf] using hchain
        · intro x hx
          have h4 := hbnd x (by simpa [registersOf] using hx)
          exact ⟨h4.1, h4.2⟩
      · have hstep : stepRpc s (RpcStep.reply id) = none := by
          simp [stepRpc, hmem]
        have : runRpc s (RpcStep.reply id :: es)
            = (stepRpc s (RpcStep.reply id)).bind (fun p =>
              (runRpc p.1 es).map (fun q => (q.1, p.2 ++ q.2))) := rfl
        rw [this, hstep] at hrun
        exact absurd hrun (by simp)

/-- C8: in any run of the correlation layer from the initial state
(counter 1, empty table), every transmitted request id has its completion
slot registered strictly before transmission, the registered ids are
pairwise distinct (never reused while outstanding, in fact never reused
at all), and a reply step removes exactly its id from the table. -/
theorem rpc_register_before_transmit (es : List RpcStep) (s2 : RpcState)
    (tr : List RpcAction) (h : runRpc ⟨1, []⟩ es = some (s2, tr)) :
    transmitsRegistered [] tr = true ∧
    ((registersOf tr).Pairwise (· ≠ ·)) ∧
    (∀ id s3 acts, stepRpc s2 (RpcStep.reply id) = some (s3, acts) →
      id ∉ s3.table ∧ acts = [RpcAction.complete id]) := by
  have hinv0 : RpcInv ⟨1, []⟩ := ⟨by simp, List.nodup_nil⟩
  rcases runRpc_master es ⟨1, []⟩ s2 tr hinv0 h with ⟨hinv2, _, htrans, hchain, _⟩
  refine ⟨htrans, ?_, ?_⟩
  · exact (List.chain'_iff_pairwise.mp hchain).imp (fun h2 => ne_of_lt h2)
  · intro id s3 acts hstep
    by_cases hmem : id ∈ s2.table
    · simp only [stepRpc, if_pos hmem] at hstep
      have h1 : s3 = ⟨s2.counter, s2.table.erase id⟩ ∧
          acts = [RpcAction.complete id] := by
        constructor
        · exact (congrArg Prod.fst (Option.some.inj hstep)).symm
        · exact (congrArg Prod.snd (Option.some.inj hstep)).symm
      rcases h1 with ⟨rfl, rfl⟩
      exact ⟨hinv2.2.not_mem_erase, rfl⟩
    · simp only [stepRpc, if_neg hmem] at hstep
      exact absurd hstep (by simp)

/-- C8 witness: the run `[call, reply 1]` from the initial state produces
the trace `[register 1, transmit 1, complete 1]`, on which registration
precedes transmission, registered ids are distinct, and a further reply
for a registered id removes it. -/
theorem rpc_register_before_transmit_witness :
    transmitsRegistered [] [RpcAction.register 1, RpcAction.transmit 1,
      RpcAction.complete 1] = true ∧
    (registersOf [RpcAction.register 1, RpcAction.transmit 1,
      RpcAction.complete 1]).Pairwise (· ≠ ·) ∧
    (∀ id s3 acts,
      stepRpc ⟨2, ([] : List Nat)⟩ (RpcStep.reply id) = some (s3, acts) →
      id ∉ s3.table ∧ acts = [RpcAction.complete id]) :=
  rpc_register_before_transmit [RpcStep.call, RpcStep.reply 1] ⟨2, []⟩
    [RpcAction.register 1, RpcAction.transmit 1, RpcAction.complete 1] (by decide)

end Kafka

namespace Broadcast

/-!
The broadcast node (src/bin/broadcast.rs). State: message set `msgs`,
neighbor list `neighbors`, and per-peer believed-known map `known`,
seeded in `from_init` with an empty set for every id in `init.node_ids`.
Sets are modelled as `Finset Nat` (Rust `HashSet<usize>`), the known map
as an association list.

The reply skeleton construction `message.into_reply` lives in the library
crate, which is not part of the sources; modelled from the spec: it swaps
`src`/`dest`, so the `reply.dest` read by the Gossip branch is the
original message's sender. Handler outputs are modelled as
`(destination, payload)` pairs, and a Rust panic as `none`.
-/

/-- The `Payload` enum of broadcast.rs. -/
inductive BPayload where
  | broadcast (msg : Nat)
  | broadcastOk
  | readReq
  | readOk (msgs : Finset Nat)
  | topology (topo : List (String × List String))
  | topologyOk
  | gossip (seen : Finset Nat)
deriving DecidableEq

/-- Events dispatched to the handler: an inbound message (with its
sender), the injected gossip tick, or EOF. -/
inductive BEvent where
  | message (src : String) (p : BPayload)
  | injected
  | eof

/-- `BroadcastNode` state (broadcast.rs lines 44-51), without the stdout
handle and id counter. -/
structure BState where
  node : String
  msgs : Finset Nat
  neighbors : List String
  known : List (String × Finset Nat)
deriving DecidableEq

/-- HashMap `get` on the believed-known map: first entry for the id. -/
def lookupKnown (known : List (String × Finset Nat)) (who : String) :
    Option (Finset Nat) :=
  (known.find? (fun p => p.1 = who)).map (fun p => p.2)

/-- HashMap `get_mut(..).extend(seen)` on the believed-known map: union
`seen` into the entry for `who` (fst fields are untouched). -/
def updateKnown (known : List (String × Finset Nat)) (who : String)
    (seen : Finset Nat) : List (String × Finset Nat) :=
  known.map (fun p => if p.1 = who then (p.1, p.2 ∪ seen) else p)

/-- `BroadcastNode::from_init`: own id, empty message set, no neighbors,
and a believed-known entry `(id, ∅)` for every id in `init.node_ids`. -/
def fromInit (nodeId : String) (nodeIds : List String) : BState :=
  ⟨nodeId, ∅, [], nodeIds.map (fun i => (i, ∅))⟩

/-- `mapOpt l f` is the for-loop over `l` that aborts (panics, `none`) at
the first element on which `f` fails. -/
def mapOpt {α β : Type} : List α → (α → Option β) → Option (List β)
  | [], _ => some []
  | a :: l, f => (f a).bind (fun b => (mapOpt l f).map (fun bs => b :: bs))

/-- `BroadcastNode::handle`: one event in, optionally a new state and a
list of `(destination, payload)` outputs; `none` models a panic
(`.expect("got gossip from unknown node")` on a Gossip from a sender with
no believed-known entry, the topology-missing-node panic, and the
`known[neighbor]` index in the tick). The Gossip branch unions `seen`
into the sender's believed-known entry and into `msgs`, and sends
nothing; the tick sends `Gossip(msgs \ known[n])` to every neighbor `n`
unconditionally. -/
def handleB (st : BState) (e : BEvent) :
    Option (BState × List (String × BPayload)) :=
  match e with
  | .eof => some (st, [])
  | .message src p =>
    match p with
    | .broadcast m => some ({ st with msgs := insert m st.msgs },
        [(src, .broadcastOk)])
    | .broadcastOk => some (st, [])
    | .readReq => some (st, [(src, .readOk st.msgs)])
    | .readOk _ => some (st, [])
    | .topology topo =>
      match topo.find? (fun q => q.1 = st.node) with
      | none => none
      | some q => some ({ st with neighbors := q.2 }, [(src, .topologyOk)])
    | .topologyOk => some (st, [])
    | .gossip seen =>
      match lookupKnown st.known src with
      | none => none
      | some _ =>
        some ({ st with
                known := updateKnown st.known src seen
                msgs := st.msgs ∪ seen }, [])
  | .injected =>
    (mapOpt st.neighbors (fun n =>
      (lookupKnown st.known n).map (fun k => (n, BPayload.gossip (st.msgs \ k))))).map
      (fun outs => (st, outs))

/-- Run a sequence of events through the handler, concatenating
outputs. -/
def runB : BState → List BEvent → Option (BState × List (String × BPayload))
  | st, [] => some (st, [])
  | st, e :: es =>
    (handleB st e).bind (fun p =>
      (runB p.1 es).map (fun q => (q.1, p.2 ++ q.2)))

theorem lookupKnown_updateKnown (who n : String) (seen : Finset Nat) :
    ∀ (known : List (String × Finset Nat)),
      lookupKnown (updateKnown known who seen) n
        = (lookupKnown known n).map (fun s => if n = who then s ∪ seen else s) := by
  intro known
  induction known with
  | nil => rfl
  | cons a rest ih =>
    by_cases han : a.1 = n
    · by_cases haw : a.1 = who
      · have hnw : n = who := han.symm.trans haw
        have h1 : updateKnown (a :: rest) who seen
            = (a.1, a.2 ∪ seen) :: updateKnown rest who seen := by
          simp [updateKnown, haw]
        rw [h1]
        simp [lookupKnown, List.find?, decide_eq_true han, decide_eq_true haw, hnw]
      · have h1 : updateKnown (a :: rest) who seen = a :: updateKnown rest who seen := by
          simp [updateKnown, haw]
        have hnw : ¬ (n = who) := fun he => haw (han.trans he)
        rw [h1]
        simp [lookupKnown, List.find?, decide_eq_true han, hnw]
    · have h2 : ∀ b : String × Finset Nat,
          (if b.1 = who then (b.1, b.2 ∪ seen) else b).1 = b.1 := by
        intro b
        by_cases hb : b.1 = who <;> simp [hb]
      have h1 : updateKnown (a :: rest) who seen
          = (if a.1 = who then (a.1, a.2 ∪ seen) else a) :: updateKnown rest who seen := by
        simp [updateKnown]
      rw [h1]
      have hhead : decide ((if a.1 = who then (a.1, a.2 ∪ seen) else a).1 = n) = false := by
        rw [h2 a]
        exact decide_eq_false han
      simp only [lookupKnown, List.find?] at ih ⊢
      rw [hhead, decide_eq_false han]
      exact ih

theorem lookupKnown_fromInit (nodeIds : List String) (sender : String) :
    lookupKnown ((fromInit "x" nodeIds).known) sender
      = if sender ∈ nodeIds then some ∅ else none := by
  show lookupKnown (nodeIds.map (fun i => (i, ∅))) sender = _
  induction nodeIds with
  | nil => simp [lookupKnown]
  | cons i rest ih =>
    by_cases hi : i = sender
    · simp [lookupKnown, List.find?, decide_eq_true hi, hi]
    · have h1 : decide (((i, (∅ : Finset Nat))).1 = sender) = false :=
        decide_eq_false hi
      simp only [lookupKnown, List.map, List.find?] at ih ⊢
      rw [h1]
      rw [ih]
      have hne : ¬ (sender = i) := fun he => hi he.symm
      simp [List.mem_cons, hne]

/-- C3: handling `Gossip{seen}` from a peer whose believed-known entry is
`k0` unions `seen` into the node's message set and into the sender's
believed-known entry, and emits no message at all (in particular, no
reply). -/
theorem gossip_unions_no_reply (st : BState) (sender : String)
    (seen k0 : Finset Nat) (h : lookupKnown st.known sender = some k0) :
    handleB st (BEvent.message sender (BPayload.gossip seen))
      = some ({ st with
                known := updateKnown st.known sender seen
                msgs := st.msgs ∪ seen }, []) ∧
    lookupKnown (updateKnown st.known sender seen) sender = some (k0 ∪ seen) := by
  constructor
  · simp [handleB, h]
  · rw [lookupKnown_updateKnown sender sender seen st.known, h]
    simp

/-- C3 witness: a two-node cluster where `n1` receives `Gossip{1}` from
`n2`; the message set and `n2`'s believed-known entry both become `{1}`,
and no message is emitted. -/
theorem gossip_unions_no_reply_witness :
    handleB (fromInit "n1" ["n1", "n2"])
        (BEvent.message "n2" (BPayload.gossip {1}))
      = some ({ fromInit "n1" ["n1", "n2"] with
                known := updateKnown (fromInit "n1" ["n1", "n2"]).known "n2" {1}
                msgs := (fromInit "n1" ["n1", "n2"]).msgs ∪ {1} }, []) ∧
    lookupKnown (updateKnown (fromInit "n1" ["n1", "n2"]).known "n2" {1}) "n2"
      = some (∅ ∪ {1}) :=
  gossip_unions_no_reply (fromInit "n1" ["n1", "n2"]) "n2" {1} ∅ (by decide)

/-- C10: handling a `Gossip` whose sender has no believed-known entry —
i.e. the sender is not among the node ids supplied at init — panics
(`.expect("got gossip from unknown node")`, modelled as `none`); for any
sender in the init peer set the lookup succeeds and the handler returns
success. -/
theorem gossip_unknown_sender_panics (nodeId : String) (nodeIds : List String)
    (sender : String) (seen : Finset Nat) :
    (sender ∉ nodeIds →
      handleB (fromInit nodeId nodeIds)
        (BEvent.message sender (BPayload.gossip seen)) = none) ∧
    (sender ∈ nodeIds →
      (handleB (fromInit nodeId nodeIds)
        (BEvent.message sender (BPayload.gossip seen))).isSome = true) := by
  have hl : lookupKnown ((fromInit nodeId nodeIds).known) sender
      = if sender ∈ nodeIds then some ∅ else none := lookupKnown_fromInit nodeIds sender
  constructor
  · intro hout
    rw [if_neg hout] at hl
    simp [handleB, hl]
  · intro hin
    rw [if_pos hin] at hl
    simp [handleB, hl]

/-- C10 witness: in a cluster initialised with ids `n1, n2`, a Gossip
from unknown sender `n3` panics while one from `n2` succeeds. -/
theorem gossip_unknown_sender_panics_witness :
    handleB (fromInit "n1" ["n1", "n2"])
        (BEvent.message "n3" (BPayload.gossip ∅)) = none ∧
    (handleB (fromInit "n1" ["n1", "n2"])
        (BEvent.message "n2" (BPayload.gossip ∅))).isSome = true :=
  ⟨(gossip_unknown_sender_panics "n1" ["n1", "n2"] "n3" ∅).1 (by decide),
   (gossip_unknown_sender_panics "n1" ["n1", "n2"] "n2" ∅).2 (by decide)⟩

theorem mapOpt_mem {α β : Type} (f : α → Option β) :
    ∀ (l : List α) (outs : List β), mapOpt l f = some outs →
      ∀ b ∈ outs, ∃ a ∈ l, f a = some b := by
  intro l
  induction l with
  | nil =>
    intro outs h b hb
    have h2 : ([] : List β) = outs := by simpa [mapOpt] using h
    rw [← h2] at hb
    exact absurd hb (by simp)
  | cons a rest ih =>
    intro outs h b hb
    rcases hfa : f a with _ | b0
    · rw [mapOpt, hfa] at h
      exact absurd h (by simp)
    · rw [mapOpt, hfa] at h
      simp only [Option.some_bind] at h
      rcases Option.map_eq_some'.mp h with ⟨bs, hbs, heq⟩
      rw [← heq] at hb
      rcases List.mem_cons.mp hb with rfl | hb2
      · exact ⟨a, List.mem_cons_self a rest, hfa⟩
      · rcases ih bs hbs b hb2 with ⟨a2, ha2, hfa2⟩
        exact ⟨a2, List.mem_cons_of_mem a ha2, hfa2⟩

/-- Per-event facts feeding the redundancy bound: every handler branch
preserves (and only grows) a peer's believed-known entry, and any
`Gossip` payload the handler emits towards peer `n` is disjoint from
`n`'s current believed-known entry (the tick sends exactly
`msgs \ known[n]`; no other branch emits a `Gossip`). -/
theorem handleB_step_facts (st : BState) (e : BEvent) (st1 : BState)
    (outs : List (String × BPayload)) (h : handleB st e = some (st1, outs))
    (n : String) (k : Finset Nat) (hk : lookupKnown st.known n = some k) :
    (∃ k1, lookupKnown st1.known n = some k1 ∧ k ⊆ k1) ∧
    (∀ seen, (n, BPayload.gossip seen) ∈ outs → ∀ v ∈ k, v ∉ seen) := by
  cases e with
  | eof =>
    have h2 : st = st1 ∧ ([] : List (String × BPayload)) = outs := by
      simpa [handleB] using h
    obtain ⟨hst, houts⟩ := h2
    rw [← hst, ← houts]
    exact ⟨⟨k, hk, subset_rfl⟩, by simp⟩
  | injected =>
    simp only [handleB] at h
    rcases Option.map_eq_some'.mp h with ⟨outs0, hmo, heq⟩
    have hst : st = st1 := congrArg Prod.fst heq
    have houts : outs0 = outs := congrArg Prod.snd heq
    rw [← hst]
    refine ⟨⟨k, hk, subset_rfl⟩, ?_⟩
    intro seen hm v hv hcontra
    rw [← houts] at hm
    rcases mapOpt_mem _ st.neighbors outs0 hmo (n, BPayload.gossip seen) hm with
      ⟨a, ha, hfa⟩
    rcases Option.map_eq_some'.mp hfa with ⟨kk, hkk, heq2⟩
    have han : a = n := congrArg Prod.fst heq2
    have hpay : BPayload.gossip (st.msgs \ kk) = BPayload.gossip seen :=
      congrArg Prod.snd heq2
    have hseen : st.msgs \ kk = seen := by injection hpay
    rw [han] at hkk
    have hkkk : kk = k := Option.some.inj (hkk.symm.trans hk)
    rw [← hseen, hkkk] at hcontra
    exact (Finset.mem_sdiff.mp hcontra).2 hv
  | message src p =>
    cases p with
    | broadcast m =>
      have h2 : ({ st with msgs := insert m st.msgs } : BState) = st1 ∧
          [(src, BPayload.broadcastOk)] = outs := by
        simpa [handleB] using h
      obtain ⟨hst, houts⟩ := h2
      rw [← hst, ← houts]
      exact ⟨⟨k, hk, subset_rfl⟩, by simp⟩
    | broadcastOk =>
      have h2 : st = st1 ∧ ([] : List (String × BPayload)) = outs := by
        simpa [handleB] using h
      obtain ⟨hst, houts⟩ := h2
      rw [← hst, ← houts]
      exact ⟨⟨k, hk, subset_rfl⟩, by simp⟩
    | readReq =>
      have h2 : st = st1 ∧ [(src, BPayload.readOk st.msgs)] = outs := by
        simpa [handleB] using h
      obtain ⟨hst, houts⟩ := h2
      rw [← hst, ← houts]
      exact ⟨⟨k, hk, subset_rfl⟩, by simp⟩
    | readOk m =>
      have h2 : st = st1 ∧ ([] : List (String × BPayload)) = outs := by
        simpa [handleB] using h
      obtain ⟨hst, houts⟩ := h2
      rw [← hst, ← houts]
      exact ⟨⟨k, hk, subset_rfl⟩, by simp⟩
    | topologyOk =>
      have h2 : st = st1 ∧ ([] : List (String × BPayload)) = outs := by
        simpa [handleB] using h
      obtain ⟨hst, houts⟩ := h2
      rw [← hst, ← houts]
      exact ⟨⟨k, hk, subset_rfl⟩, by simp⟩
    | topology topo =>
      simp only [handleB] at h
      rcases hf : topo.find? (fun q => q.1 = st.node) with _ | q
      · rw [hf] at h
        exact absurd h (by simp)
      · rw [hf] at h
        have h2 : ({ st with neighbors := q.2 } : BState) = st1 ∧
            [(src, BPayload.topologyOk)] = outs := by
          simpa using h
        obtain ⟨hst, houts⟩ := h2
        rw [← hst, ← houts]
        exact ⟨⟨k, hk, subset_rfl⟩, by simp⟩
    | gossip seen0 =>
      simp only [handleB] at h
      rcases hl : lookupKnown st.known src with _ | k0
      · rw [hl] at h
        exact absurd h (by simp)
      · rw [hl] at h
        have h2 : ({ st with
              known := updateKnown st.known src seen0
              msgs := st.msgs ∪ seen0 } : BState) = st1 ∧
            ([] : List (String × BPayload)) = outs := by
          simpa using h
        obtain ⟨hst, houts⟩ := h2
        rw [← hst, ← houts]
        refine ⟨?_, by simp⟩
        show ∃ k1, lookupKnown (updateKnown st.known src seen0) n = some k1 ∧ k ⊆ k1
        rw [lookupKnown_updateKnown src n seen0 st.known, hk]
        by_cases hns : n = src
        · exact ⟨k ∪ seen0, by simp [hns], Finset.subset_union_left⟩
        · exact ⟨k, by simp [hns], subset_rfl⟩

/-- C7: once value `v` is in the node's believed-known set for peer `n`,
no later run of events — gossip ticks included — ever emits a `Gossip`
payload containing `v` towards `n`: the believed-known entry only grows,
and each tick sends exactly `msgs \ known[n]`. -/
theorem gossip_redundancy_bound (es : List BEvent) :
    ∀ (st st2 : BState) (outs : List (String × BPayload)) (n : String)
      (v : Nat) (k : Finset Nat),
      lookupKnown st.known n = some k → v ∈ k →
      runB st es = some (st2, outs) →
      (∃ k2, lookupKnown st2.known n = some k2 ∧ v ∈ k2) ∧
      (∀ seen, (n, BPayload.gossip seen) ∈ outs → v ∉ seen) := by
  induction es with
  | nil =>
    intro st st2 outs n v k hk hv hrun
    have h2 : st = st2 ∧ ([] : List (String × BPayload)) = outs := by
      simpa [runB] using hrun
    obtain ⟨hst, houts⟩ := h2
    rw [← hst, ← houts]
    exact ⟨⟨k, hk, hv⟩, by simp⟩
  | cons e es ih =>
    intro st st2 outs n v k hk hv hrun
    rcases hh : handleB st e with _ | p
    · rw [runB, hh] at hrun
      exact absurd hrun (by simp)
    · rw [runB, hh] at hrun
      simp only [Option.some_bind] at hrun
      rcases Option.map_eq_some'.mp hrun with ⟨q, hq, heq⟩
      have hs2 : q.1 = st2 := congrArg Prod.fst heq
      have houts : p.2 ++ q.2 = outs := congrArg Prod.snd heq
      rcases handleB_step_facts st e p.1 p.2 hh n k hk with ⟨⟨k1, hk1, hsub⟩, hout1⟩
      rcases ih p.1 q.1 q.2 n v k1 hk1 (hsub hv) hq with ⟨hfin, hout2⟩
      rw [← hs2, ← houts]
      refine ⟨hfin, ?_⟩
      intro seen hm
      rcases List.mem_append.mp hm with hm1 | hm2
      · exact hout1 seen hm1 v hv
      · exact hout2 seen hm2

/-- C7 witness: a node with messages `{1, 2}` that already believes
neighbor `n2` knows `1` sends only `{1, 2} \ {1}` (that is, `{2}`, not
containing `1`) to `n2` on a gossip tick. -/
theorem gossip_redundancy_bound_witness :
    (∃ k2, lookupKnown [("n1", (∅ : Finset Nat)), ("n2", {1})] "n2" = some k2 ∧
      1 ∈ k2) ∧
    (∀ seen, ("n2", BPayload.gossip seen) ∈
        [("n2", BPayload.gossip (({1, 2} : Finset Nat) \ {1}))] → 1 ∉ seen) :=
  gossip_redundancy_bound [BEvent.injected]
    ⟨"n1", {1, 2}, ["n2"], [("n1", ∅), ("n2", {1})]⟩
    ⟨"n1", {1, 2}, ["n2"], [("n1", ∅), ("n2", {1})]⟩
    [("n2", BPayload.gossip (({1, 2} : Finset Nat) \ {1}))]
    "n2" 1 {1} (by decide) (by decide) (by decide)

end Broadcast
